import Mathlib

/-!
# Verification of the TechShoulders graph-neighborhood engine

This file gives a shallow embedding of the graph utilities of the
TechShoulders repository (`src/lib/graph.ts`, `src/lib/edgeClassification.ts`,
and the inline BFS of the interactive viewer component) and proves the
correctness properties stated in the repository's specification.

JavaScript `Set<string>` values are modelled as `List String` in insertion
order with no duplicates (an element is appended only when absent, exactly as
`Set.add` behaves); set-level statements are phrased via membership.  The
`while` loop of the BFS is modelled with an explicit fuel parameter; a proved
adequacy theorem shows that a concrete, input-derived fuel budget always
suffices (the loop empties its queue), which is the termination property of
the original loop.
-/

namespace TechShoulders

/-- Edge kinds of `edgeClassification.ts`: `influence` (strong) or
`affiliation` (weak). -/
inductive EdgeKind : Type where
  | influence : EdgeKind
  | affiliation : EdgeKind
deriving DecidableEq

/-- The `GraphEdge` interface of `graph.ts`: a directed, labelled edge
between two node ids, with optional label and year. -/
structure GraphEdge : Type where
  source : String
  target : String
  kind : EdgeKind
  label : Option String := none
  year : Option Int := none

/-- All node ids occurring as an endpoint of some edge, in order. -/
def edgeIds : List GraphEdge → List String
  | [] => []
  | e :: rest => e.source :: e.target :: edgeIds rest

theorem length_edgeIds (edges : List GraphEdge) :
    (edgeIds edges).length = 2 * edges.length := by
  induction edges with
  | nil => rfl
  | cons e rest ih => simp [edgeIds, ih]; omega

/-- A single edge connects `a` to `b` when `a` and `b` are its two endpoints,
in either orientation (the engine treats edges as undirected). -/
def adjE (e : GraphEdge) (a b : String) : Prop :=
  (e.source = a ∧ e.target = b) ∨ (e.target = a ∧ e.source = b)

/-- Two node ids are adjacent when some edge of the list connects them,
in either direction. -/
def adj (edges : List GraphEdge) (a b : String) : Prop :=
  ∃ e ∈ edges, adjE e a b

theorem adjE_mem_left {e : GraphEdge} {a b : String} (h : adjE e a b) :
    a = e.source ∨ a = e.target := by
  rcases h with ⟨hs, _⟩ | ⟨ht, _⟩
  · exact Or.inl hs.symm
  · exact Or.inr ht.symm

theorem adjE_mem_right {e : GraphEdge} {a b : String} (h : adjE e a b) :
    b = e.source ∨ b = e.target := by
  rcases h with ⟨_, ht⟩ | ⟨_, hs⟩
  · exact Or.inr ht.symm
  · exact Or.inl hs.symm

theorem mem_edgeIds_of_endpoint {edges : List GraphEdge} {e : GraphEdge}
    (he : e ∈ edges) {x : String} (hx : x = e.source ∨ x = e.target) :
    x ∈ edgeIds edges := by
  induction edges with
  | nil => cases he
  | cons f rest ih =>
    rcases List.mem_cons.mp he with rfl | hmem
    · rcases hx with rfl | rfl
      · exact List.mem_cons_self _ _
      · exact List.mem_cons_of_mem _ (List.mem_cons_self _ _)
    · exact List.mem_cons_of_mem _ (List.mem_cons_of_mem _ (ih hmem))

theorem adj_mem_edgeIds {edges : List GraphEdge} {a b : String}
    (h : adj edges a b) : b ∈ edgeIds edges := by
  obtain ⟨e, he, hadj⟩ := h
  exact mem_edgeIds_of_endpoint he (adjE_mem_right hadj)

theorem adj_symm {edges : List GraphEdge} {a b : String}
    (h : adj edges a b) : adj edges b a := by
  obtain ⟨e, he, hadj⟩ := h
  refine ⟨e, he, ?_⟩
  rcases hadj with ⟨hs, ht⟩ | ⟨ht, hs⟩
  · exact Or.inr ⟨ht, hs⟩
  · exact Or.inl ⟨hs, ht⟩

/-- Specification-side reachability: `reachFrom edges x n y` holds when there
is a walk (simple or not) of at most `n` hops from `x` to `y`, each hop
traversing one edge in either direction. -/
def reachFrom (edges : List GraphEdge) : String → Nat → String → Prop
  | x, 0, y => y = x
  | x, n + 1, y => y = x ∨ ∃ z, adj edges x z ∧ reachFrom edges z n y

theorem reachFrom_self (edges : List GraphEdge) (x : String) :
    ∀ n, reachFrom edges x n x
  | 0 => rfl
  | _ + 1 => Or.inl rfl

theorem reachFrom_succ {edges : List GraphEdge} {x y : String} {n : Nat}
    (h : reachFrom edges x n y) : reachFrom edges x (n + 1) y := by
  induction n generalizing x with
  | zero => exact Or.inl h
  | succ n ih =>
    rcases h with h | ⟨z, hadj, hz⟩
    · exact Or.inl h
    · exact Or.inr ⟨z, hadj, ih hz⟩

theorem reachFrom_mono {edges : List GraphEdge} {x y : String} {n m : Nat}
    (hnm : n ≤ m) (h : reachFrom edges x n y) : reachFrom edges x m y := by
  induction hnm with
  | refl => exact h
  | step _ ih => exact reachFrom_succ ih

theorem reachFrom_step {edges : List GraphEdge} {x z y : String} {n : Nat}
    (hadj : adj edges x z) (h : reachFrom edges z n y) :
    reachFrom edges x (n + 1) y :=
  Or.inr ⟨z, hadj, h⟩

theorem reachFrom_snoc {edges : List GraphEdge} {x y z : String} {n : Nat}
    (h : reachFrom edges x n y) (hadj : adj edges y z) :
    reachFrom edges x (n + 1) z := by
  induction n generalizing x with
  | zero =>
    cases h
    exact Or.inr ⟨z, hadj, rfl⟩
  | succ n ih =>
    rcases h with rfl | ⟨w, hxw, hw⟩
    · exact Or.inr ⟨z, hadj, reachFrom_self edges z (n + 1)⟩
    · exact Or.inr ⟨w, hxw, ih hw⟩

/-! ## Edge classification (`edgeClassification.ts`) -/

/-- Labels classified as strong (influence) edges. -/
def STRONG_EDGE_LABELS : List String :=
  [r"created", r"invented", r"influenced", r"inspired", r"built_on",
    r"popularized", r"standardized"]

/-- Labels classified as weak (affiliation) edges. -/
def WEAK_EDGE_LABELS : List String :=
  [r"studied at", r"worked at", r"professor at", r"fellow at", r"founded",
    r"funded_by"]

/-- Determine edge kind from label, as in `getEdgeKind` of
`edgeClassification.ts`: strong labels map to `influence`, weak labels to
`affiliation`, and unknown labels default to `influence`. -/
def getEdgeKind (label : String) : EdgeKind :=
  if label ∈ STRONG_EDGE_LABELS then EdgeKind.influence
  else if label ∈ WEAK_EDGE_LABELS then EdgeKind.affiliation
  else EdgeKind.influence

/-- Model of the diagnostic side effect of `getEdgeKind`: the source calls
`console.warn` exactly on the fallthrough branch, i.e. when the label is in
neither label list. -/
def getEdgeKindWarns (label : String) : Bool :=
  !(decide (label ∈ STRONG_EDGE_LABELS)) && !(decide (label ∈ WEAK_EDGE_LABELS))

/-- The `isValidEdgeLabel` helper of `edgeClassification.ts`. -/
def isValidEdgeLabel (label : String) : Bool :=
  decide (label ∈ STRONG_EDGE_LABELS) || decide (label ∈ WEAK_EDGE_LABELS)

/-! ## The BFS of `getNeighborhood` (`graph.ts`)

The body of the `while` loop of `getNeighborhood` dequeues one item and, for
every edge of the list, runs two conditional inserts (one for the outgoing
orientation, one for the incoming orientation), appending the newly visited
ids to the queue at depth `d + 1`.  `stepEdge` is the per-edge body and
`scanEdges` the `for` loop over all edges; both return the updated visited
list together with the queue items pushed, in push order. -/

/-- Process one edge for dequeued node `id` at depth `d`: if `id` is the
source and the target is unvisited, visit and push the target; then, if `id`
is the target and the source is unvisited, visit and push the source. -/
def stepEdge (id : String) (d : Nat) (e : GraphEdge) (visited : List String) :
    List String × List (String × Nat) :=
  let st1 :=
    if e.source = id ∧ e.target ∉ visited then
      (visited ++ [e.target], [(e.target, d + 1)])
    else (visited, ([] : List (String × Nat)))
  if e.target = id ∧ e.source ∉ st1.1 then
    (st1.1 ++ [e.source], st1.2 ++ [(e.source, d + 1)])
  else st1

/-- The inner `for (const edge of edges)` loop of `getNeighborhood`. -/
def scanEdges (id : String) (d : Nat) (edges : List GraphEdge)
    (visited : List String) : List String × List (String × Nat) :=
  match edges with
  | [] => (visited, [])
  | e :: rest =>
    let st2 := stepEdge id d e visited
    let st3 := scanEdges id d rest st2.1
    (st3.1, st2.2 ++ st3.2)

theorem stepEdge_visited_eq (id : String) (d : Nat) (e : GraphEdge)
    (v : List String) :
    (stepEdge id d e v).1 = v ++ ((stepEdge id d e v).2.map Prod.fst) := by
  simp only [stepEdge]
  by_cases h1 : e.source = id ∧ e.target ∉ v
  · by_cases h2 : e.target = id ∧ e.source ∉ v ++ [e.target]
    · simp only [if_pos h1, if_pos h2]
      simp
    · simp only [if_pos h1, if_neg h2]
      simp
  · by_cases h2 : e.target = id ∧ e.source ∉ v
    · simp only [if_neg h1, if_pos h2]
      simp
    · simp only [if_neg h1, if_neg h2]
      simp

theorem stepEdge_pushes_nodup (id : String) (d : Nat) (e : GraphEdge)
    (v : List String) : ((stepEdge id d e v).2.map Prod.fst).Nodup := by
  simp only [stepEdge]
  by_cases h1 : e.source = id ∧ e.target ∉ v
  · by_cases h2 : e.target = id ∧ e.source ∉ v ++ [e.target]
    · have hne : e.target ≠ e.source := by
        intro h
        exact h2.2 (by simp [h])
      simp only [if_pos h1, if_pos h2]
      simp [hne]
    · simp only [if_pos h1, if_neg h2]
      simp
  · by_cases h2 : e.target = id ∧ e.source ∉ v
    · simp only [if_neg h1, if_pos h2]
      simp
    · simp only [if_neg h1, if_neg h2]
      simp

theorem stepEdge_pushes_spec (id : String) (d : Nat) (e : GraphEdge)
    (v : List String) :
    ∀ p ∈ (stepEdge id d e v).2, p.2 = d + 1 ∧ p.1 ∉ v ∧ adjE e id p.1 := by
  simp only [stepEdge]
  by_cases h1 : e.source = id ∧ e.target ∉ v
  · by_cases h2 : e.target = id ∧ e.source ∉ v ++ [e.target]
    · have hsv : e.source ∉ v := fun h => h2.2 (List.mem_append_left _ h)
      simp only [if_pos h1, if_pos h2]
      intro p hp
      rcases List.mem_append.mp hp with hp | hp
      · simp only [List.mem_singleton] at hp
        subst hp
        exact ⟨rfl, h1.2, Or.inl ⟨h1.1, rfl⟩⟩
      · simp only [List.mem_singleton] at hp
        subst hp
        exact ⟨rfl, hsv, Or.inr ⟨h2.1, rfl⟩⟩
    · simp only [if_pos h1, if_neg h2]
      intro p hp
      simp only [List.mem_singleton] at hp
      subst hp
      exact ⟨rfl, h1.2, Or.inl ⟨h1.1, rfl⟩⟩
  · by_cases h2 : e.target = id ∧ e.source ∉ v
    · simp only [if_neg h1, if_pos h2]
      intro p hp
      simp only [List.nil_append, List.mem_singleton] at hp
      subst hp
      exact ⟨rfl, h2.2, Or.inr ⟨h2.1, rfl⟩⟩
    · simp only [if_neg h1, if_neg h2]
      intro p hp
      cases hp

theorem stepEdge_covers (id : String) (d : Nat) (e : GraphEdge)
    (v : List String) :
    ∀ u, adjE e id u → u ∈ (stepEdge id d e v).1 := by
  intro u hu
  simp only [stepEdge]
  by_cases h1 : e.source = id ∧ e.target ∉ v
  · by_cases h2 : e.target = id ∧ e.source ∉ v ++ [e.target]
    · simp only [if_pos h1, if_pos h2]
      rcases hu with ⟨hs, ht⟩ | ⟨ht, hs⟩
      · subst ht
        simp
      · subst hs
        simp
    · simp only [if_pos h1, if_neg h2]
      rcases hu with ⟨hs, ht⟩ | ⟨ht, hs⟩
      · subst ht
        simp
      · subst hs
        by_cases hsv : e.source ∈ v ++ [e.target]
        · exact hsv
        · exact absurd ⟨ht, hsv⟩ h2
  · by_cases h2 : e.target = id ∧ e.source ∉ v
    · simp only [if_neg h1, if_pos h2]
      rcases hu with ⟨hs, ht⟩ | ⟨ht, hs⟩
      · subst ht
        by_cases htv : e.target ∈ v
        · exact List.mem_append_left _ htv
        · exact absurd ⟨hs, htv⟩ h1
      · subst hs
        simp
    · simp only [if_neg h1, if_neg h2]
      rcases hu with ⟨hs, ht⟩ | ⟨ht, hs⟩
      · subst ht
        by_cases htv : e.target ∈ v
        · exact htv
        · exact absurd ⟨hs, htv⟩ h1
      · subst hs
        by_cases hsv : e.source ∈ v
        · exact hsv
        · exact absurd ⟨ht, hsv⟩ h2

theorem stepEdge_pushes_le (id : String) (d : Nat) (e : GraphEdge)
    (v : List String) :
    (stepEdge id d e v).2.length ≤
      if e.source = id ∨ e.target = id then 2 else 0 := by
  simp only [stepEdge]
  by_cases h1 : e.source = id ∧ e.target ∉ v
  · by_cases h2 : e.target = id ∧ e.source ∉ v ++ [e.target]
    · simp only [if_pos h1, if_pos h2, if_pos (Or.inl h1.1)]
      simp
    · simp only [if_pos h1, if_neg h2, if_pos (Or.inl h1.1)]
      simp
  · by_cases h2 : e.target = id ∧ e.source ∉ v
    · simp only [if_neg h1, if_pos h2, if_pos (Or.inr h2.1)]
      simp
    · simp only [if_neg h1, if_neg h2]
      simp

theorem scanEdges_visited_eq (id : String) (d : Nat) (edges : List GraphEdge)
    (v : List String) :
    (scanEdges id d edges v).1 = v ++ ((scanEdges id d edges v).2.map Prod.fst) := by
  induction edges generalizing v with
  | nil => simp [scanEdges]
  | cons e rest ih =>
    simp only [scanEdges]
    rw [ih (stepEdge id d e v).1, stepEdge_visited_eq id d e v]
    simp

theorem scanEdges_sub (id : String) (d : Nat) (edges : List GraphEdge)
    (v : List String) : ∀ x ∈ v, x ∈ (scanEdges id d edges v).1 := by
  intro x hx
  rw [scanEdges_visited_eq]
  exact List.mem_append_left _ hx

theorem scanEdges_pushes_spec (id : String) (d : Nat) (edges : List GraphEdge)
    (v : List String) :
    ∀ p ∈ (scanEdges id d edges v).2,
      p.2 = d + 1 ∧ p.1 ∉ v ∧ adj edges id p.1 := by
  induction edges generalizing v with
  | nil =>
    intro p hp
    cases hp
  | cons e rest ih =>
    simp only [scanEdges]
    intro p hp
    rcases List.mem_append.mp hp with hp | hp
    · obtain ⟨h2, hnv, hadj⟩ := stepEdge_pushes_spec id d e v p hp
      exact ⟨h2, hnv, ⟨e, List.mem_cons_self _ _, hadj⟩⟩
    · obtain ⟨h2, hnv, hadj⟩ := ih (stepEdge id d e v).1 p hp
      refine ⟨h2, fun hv => hnv ?_, ?_⟩
      · rw [stepEdge_visited_eq]
        exact List.mem_append_left _ hv
      · obtain ⟨f, hf, hfe⟩ := hadj
        exact ⟨f, List.mem_cons_of_mem _ hf, hfe⟩

theorem scanEdges_pushes_nodup (id : String) (d : Nat) (edges : List GraphEdge)
    (v : List String) : ((scanEdges id d edges v).2.map Prod.fst).Nodup := by
  induction edges generalizing v with
  | nil => simp [scanEdges]
  | cons e rest ih =>
    simp only [scanEdges, List.map_append]
    rw [List.nodup_append]
    refine ⟨stepEdge_pushes_nodup id d e v, ih (stepEdge id d e v).1, ?_⟩
    intro a ha hb
    obtain ⟨p, hp, hpa⟩ := List.mem_map.mp hb
    obtain ⟨_, hnv, _⟩ := scanEdges_pushes_spec id d rest (stepEdge id d e v).1 p hp
    apply hnv
    rw [stepEdge_visited_eq]
    refine List.mem_append_right _ ?_
    rw [hpa]
    exact ha

theorem scanEdges_covers (id : String) (d : Nat) (edges : List GraphEdge)
    (v : List String) :
    ∀ u, adj edges id u → u ∈ (scanEdges id d edges v).1 := by
  induction edges generalizing v with
  | nil =>
    intro u hu
    obtain ⟨e, he, _⟩ := hu
    cases he
  | cons e rest ih =>
    intro u hu
    simp only [scanEdges]
    obtain ⟨f, hf, hfe⟩ := hu
    rcases List.mem_cons.mp hf with rfl | hf
    · have h1 : u ∈ (stepEdge id d f v).1 := stepEdge_covers id d f v u hfe
      exact scanEdges_sub id d rest _ u h1
    · exact ih (stepEdge id d e v).1 u ⟨f, hf, hfe⟩

theorem scanEdges_pushes_length_le (id : String) (d : Nat)
    (edges : List GraphEdge) (v : List String) :
    (scanEdges id d edges v).2.length ≤
      2 * edges.countP (fun e => e.source == id || e.target == id) := by
  induction edges generalizing v with
  | nil => simp [scanEdges]
  | cons e rest ih =>
    simp only [scanEdges, List.length_append, List.countP_cons]
    have h1 := stepEdge_pushes_le id d e v
    have h2 := ih (stepEdge id d e v).1
    by_cases hinc : e.source = id ∨ e.target = id
    · have : (e.source == id || e.target == id) = true := by
        rcases hinc with h | h
        · simp [h]
        · simp [h]
      rw [if_pos hinc] at h1
      simp only [this, if_pos]
      omega
    · have : (e.source == id || e.target == id) = false := by
        push_neg at hinc
        simp [hinc.1, hinc.2]
      rw [if_neg hinc] at h1
      simp only [this]
      omega

theorem scanEdges_measure (id : String) (d : Nat) (edges : List GraphEdge)
    (v : List String) :
    ((edgeIds edges).toFinset \ (scanEdges id d edges v).1.toFinset).card
        + (scanEdges id d edges v).2.length
      ≤ ((edgeIds edges).toFinset \ v.toFinset).card := by
  have hv1 : (scanEdges id d edges v).1.toFinset =
      v.toFinset ∪ ((scanEdges id d edges v).2.map Prod.fst).toFinset := by
    rw [scanEdges_visited_eq]
    simp
  have hFsub : ((scanEdges id d edges v).2.map Prod.fst).toFinset ⊆
      (edgeIds edges).toFinset \ v.toFinset := by
    intro x hx
    rw [List.mem_toFinset] at hx
    obtain ⟨p, hp, hpx⟩ := List.mem_map.mp hx
    obtain ⟨_, hnv, hadj⟩ := scanEdges_pushes_spec id d edges v p hp
    rw [Finset.mem_sdiff, List.mem_toFinset, List.mem_toFinset]
    subst hpx
    exact ⟨adj_mem_edgeIds hadj, hnv⟩
  have hsplit : (edgeIds edges).toFinset \ (scanEdges id d edges v).1.toFinset =
      ((edgeIds edges).toFinset \ v.toFinset) \
        ((scanEdges id d edges v).2.map Prod.fst).toFinset := by
    rw [hv1]
    ext x
    simp only [Finset.mem_sdiff, Finset.mem_union]
    tauto
  have hcard := Finset.card_sdiff hFsub
  have hle := Finset.card_le_card hFsub
  have hFcard : ((scanEdges id d edges v).2.map Prod.fst).toFinset.card =
      (scanEdges id d edges v).2.length := by
    rw [List.toFinset_card_of_nodup (scanEdges_pushes_nodup id d edges v)]
    simp
  rw [hsplit, hcard, hFcard]
  rw [hFcard] at hle
  omega

/-- The `while` loop of `getNeighborhood`, with an explicit fuel bound on the
number of iterations.  Each iteration dequeues the oldest item; items at depth
`≥ depth` are not expanded (the `continue` branch); otherwise the edge list is
scanned and the newly visited ids are enqueued at depth `d + 1`.  The source
also guards against `shift()` returning `undefined`, which cannot happen while
the loop condition holds, so the guard has no counterpart here. -/
def bfsLoopFuel (edges : List GraphEdge) (depth : Nat) :
    Nat → List (String × Nat) → List String → Option (List String)
  | _, [], visited => some visited
  | 0, _ :: _, _ => none
  | fuel + 1, (id, d) :: queue, visited =>
    if depth ≤ d then bfsLoopFuel edges depth fuel queue visited
    else
      bfsLoopFuel edges depth fuel (queue ++ (scanEdges id d edges visited).2)
        (scanEdges id d edges visited).1

theorem bfsLoopFuel_nil (edges : List GraphEdge) (depth fuel : Nat)
    (v : List String) : bfsLoopFuel edges depth fuel [] v = some v := by
  cases fuel <;> rfl

theorem bfsLoopFuel_zero_cons (edges : List GraphEdge) (depth : Nat)
    (p : String × Nat) (q : List (String × Nat)) (v : List String) :
    bfsLoopFuel edges depth 0 (p :: q) v = none := rfl

theorem bfsLoopFuel_succ_cons (edges : List GraphEdge) (depth fuel : Nat)
    (id : String) (d : Nat) (q : List (String × Nat)) (v : List String) :
    bfsLoopFuel edges depth (fuel + 1) ((id, d) :: q) v =
      if depth ≤ d then bfsLoopFuel edges depth fuel q v
      else bfsLoopFuel edges depth fuel (q ++ (scanEdges id d edges v).2)
        (scanEdges id d edges v).1 := rfl

/-- A fuel budget sufficient for any state of the loop: twice the number of
edge-endpoint ids not yet visited, plus the queue length.  Every iteration
strictly decreases this quantity. -/
def bfsFuel (edges : List GraphEdge) (v : List String)
    (q : List (String × Nat)) : Nat :=
  2 * ((edgeIds edges).toFinset \ v.toFinset).card + q.length

theorem bfsLoopFuel_isSome (edges : List GraphEdge) (depth : Nat) :
    ∀ fuel (q : List (String × Nat)) (v : List String),
      bfsFuel edges v q ≤ fuel →
      ∃ r, bfsLoopFuel edges depth fuel q v = some r := by
  intro fuel
  induction fuel with
  | zero =>
    intro q v h
    cases q with
    | nil => exact ⟨v, rfl⟩
    | cons p q =>
      exfalso
      simp [bfsFuel] at h
  | succ fuel ih =>
    intro q v h
    cases q with
    | nil => exact ⟨v, bfsLoopFuel_nil _ _ _ _⟩
    | cons p q =>
      obtain ⟨id, d⟩ := p
      rw [bfsLoopFuel_succ_cons]
      by_cases hd : depth ≤ d
      · rw [if_pos hd]
        apply ih
        simp only [bfsFuel, List.length_cons] at h ⊢
        omega
      · rw [if_neg hd]
        apply ih
        have hm := scanEdges_measure id d edges v
        simp only [bfsFuel, List.length_cons, List.length_append] at h ⊢
        omega

theorem bfsLoopFuel_fuel_mono (edges : List GraphEdge) (depth : Nat) :
    ∀ fuel fuel' (q : List (String × Nat)) (v r : List String),
      bfsLoopFuel edges depth fuel q v = some r → fuel ≤ fuel' →
      bfsLoopFuel edges depth fuel' q v = some r := by
  intro fuel
  induction fuel with
  | zero =>
    intro fuel' q v r h _
    cases q with
    | nil =>
      rw [bfsLoopFuel_nil] at h
      rw [bfsLoopFuel_nil]
      exact h
    | cons p q => cases h
  | succ fuel ih =>
    intro fuel' q v r h hle
    cases q with
    | nil =>
      rw [bfsLoopFuel_nil] at h
      rw [bfsLoopFuel_nil]
      exact h
    | cons p q =>
      obtain ⟨id, d⟩ := p
      obtain ⟨fuel'', rfl⟩ : ∃ k, fuel' = k + 1 := by
        cases fuel' with
        | zero => omega
        | succ k => exact ⟨k, rfl⟩
      rw [bfsLoopFuel_succ_cons] at h
      rw [bfsLoopFuel_succ_cons]
      by_cases hd : depth ≤ d
      · rw [if_pos hd] at h ⊢
        exact ih fuel'' q v r h (by omega)
      · rw [if_neg hd] at h ⊢
        exact ih fuel'' _ _ r h (by omega)

/-- The `getNeighborhood` function of `graph.ts`: BFS from `nodeId` up to
`depth` hops, seeded with visited set and queue containing `nodeId` at depth
0.  The fuel budget is sufficient by `bfsLoopFuel_isSome`, so the default
value of `getD` is never used. -/
def getNeighborhood (nodeId : String) (depth : Nat)
    (edges : List GraphEdge) : List String :=
  (bfsLoopFuel edges depth (bfsFuel edges [nodeId] [(nodeId, 0)])
    [(nodeId, 0)] [nodeId]).getD [nodeId]

theorem getNeighborhood_eq_some (nodeId : String) (depth : Nat)
    (edges : List GraphEdge) :
    bfsLoopFuel edges depth (bfsFuel edges [nodeId] [(nodeId, 0)])
      [(nodeId, 0)] [nodeId] = some (getNeighborhood nodeId depth edges) := by
  obtain ⟨r, hr⟩ := bfsLoopFuel_isSome edges depth
    (bfsFuel edges [nodeId] [(nodeId, 0)]) [(nodeId, 0)] [nodeId] le_rfl
  rw [getNeighborhood, hr]
  rfl

theorem bfsLoopFuel_sound (edges : List GraphEdge) (depth : Nat) :
    ∀ fuel (q : List (String × Nat)) (v r : List String),
      bfsLoopFuel edges depth fuel q v = some r →
      ∀ y ∈ r, y ∈ v ∨
        ∃ x d n, (x, d) ∈ q ∧ d + n ≤ depth ∧ reachFrom edges x n y := by
  intro fuel
  induction fuel with
  | zero =>
    intro q v r h y hy
    cases q with
    | nil =>
      rw [bfsLoopFuel_nil, Option.some_inj] at h
      subst h
      exact Or.inl hy
    | cons p q => cases h
  | succ fuel ih =>
    intro q v r h y hy
    cases q with
    | nil =>
      rw [bfsLoopFuel_nil, Option.some_inj] at h
      subst h
      exact Or.inl hy
    | cons p q =>
      obtain ⟨id, d⟩ := p
      rw [bfsLoopFuel_succ_cons] at h
      by_cases hd : depth ≤ d
      · rw [if_pos hd] at h
        rcases ih q v r h y hy with hv | ⟨x, d', n, hq, hn, hr⟩
        · exact Or.inl hv
        · exact Or.inr ⟨x, d', n, List.mem_cons_of_mem _ hq, hn, hr⟩
      · rw [if_neg hd] at h
        rcases ih _ _ r h y hy with hv | ⟨x, d', n, hq, hn, hr⟩
        · rw [scanEdges_visited_eq] at hv
          rcases List.mem_append.mp hv with hv | hv
          · exact Or.inl hv
          · obtain ⟨p, hp, hpy⟩ := List.mem_map.mp hv
            obtain ⟨_, _, hadj⟩ := scanEdges_pushes_spec id d edges v p hp
            rw [hpy] at hadj
            exact Or.inr ⟨id, d, 1, List.mem_cons_self _ _, by omega,
              reachFrom_step hadj rfl⟩
        · rcases List.mem_append.mp hq with hq | hq
          · exact Or.inr ⟨x, d', n, List.mem_cons_of_mem _ hq, hn, hr⟩
          · obtain ⟨hd', _, hadj⟩ := scanEdges_pushes_spec id d edges v (x, d') hq
            simp only at hd' hadj
            subst hd'
            exact Or.inr ⟨id, d, n + 1, List.mem_cons_self _ _, by omega,
              reachFrom_step hadj hr⟩

/-- Invariant of the BFS loop, relating the queue `q` and the visited list
`v` to a ghost discovery record `VD` assigning to every visited id the depth
at which it was first visited.  The fields capture: the visited list is the
ids of the record; every queue item is a record entry; each id is recorded
(and queued) at most once; queue depths are non-decreasing and span at most
two consecutive levels; recorded depths never exceed any queued depth plus
one; and every dequeued (processed) id whose depth is below the hop bound has
all its neighbors recorded at most one level deeper. -/
structure Inv (edges : List GraphEdge) (depth : Nat)
    (VD : List (String × Nat)) (q : List (String × Nat))
    (v : List String) : Prop where
  v_eq : v = VD.map Prod.fst
  q_sub : ∀ p ∈ q, p ∈ VD
  vd_nodup : (VD.map Prod.fst).Nodup
  q_nodup : (q.map Prod.fst).Nodup
  q_sorted : List.Pairwise (fun a b => a ≤ b ∧ b ≤ a + 1) (q.map Prod.snd)
  depth_bound : ∀ p ∈ VD, ∀ p' ∈ q, p.2 ≤ p'.2 + 1
  closure : ∀ p ∈ VD, p.1 ∉ q.map Prod.fst → p.2 < depth →
    ∀ u, adj edges p.1 u → ∃ e, e ≤ p.2 + 1 ∧ (u, e) ∈ VD

theorem snd_eq_of_keys_nodup {VD : List (String × Nat)}
    (h : (VD.map Prod.fst).Nodup) {x : String} {a b : Nat}
    (ha : (x, a) ∈ VD) (hb : (x, b) ∈ VD) : a = b := by
  induction VD with
  | nil => cases ha
  | cons p rest ih =>
    simp only [List.map_cons, List.nodup_cons] at h
    rcases List.mem_cons.mp ha with rfl | ha' <;>
      rcases List.mem_cons.mp hb with hb' | hb'
    · exact ((Prod.mk.injEq _ _ _ _).mp hb').2.symm
    · exfalso
      exact h.1 (List.mem_map.mpr ⟨(x, b), hb', rfl⟩)
    · exfalso
      subst hb'
      exact h.1 (List.mem_map.mpr ⟨(x, a), ha', rfl⟩)
    · exact ih h.2 ha' hb'

theorem Inv_skip {edges : List GraphEdge} {depth : Nat}
    {VD q : List (String × Nat)} {v : List String} {id : String} {d : Nat}
    (hInv : Inv edges depth VD ((id, d) :: q) v) (hd : depth ≤ d) :
    Inv edges depth VD q v := by
  obtain ⟨v_eq, q_sub, vd_nodup, q_nodup, q_sorted, depth_bound, closure⟩ := hInv
  refine ⟨v_eq, ?_, vd_nodup, ?_, ?_, ?_, ?_⟩
  · exact fun p hp => q_sub p (List.mem_cons_of_mem _ hp)
  · exact (List.nodup_cons.mp q_nodup).2
  · exact List.Pairwise.of_cons q_sorted
  · exact fun p hp p' hp' => depth_bound p hp p' (List.mem_cons_of_mem _ hp')
  · intro p hp hpq hpd u hadj
    by_cases hx : p.1 = id
    · exfalso
      have hpd' : p.2 = d := by
        have hid : (id, d) ∈ VD := q_sub (id, d) (List.mem_cons_self _ _)
        have : (p.1, p.2) ∈ VD := by
          simpa using hp
        rw [hx] at this
        exact snd_eq_of_keys_nodup vd_nodup this hid
      omega
    · apply closure p hp _ hpd u hadj
      simp only [List.map_cons, List.mem_cons]
      rintro (h | h)
      · exact hx h
      · exact hpq h

theorem pairwise_levels_of_const {l : List Nat} {c : Nat}
    (h : ∀ x ∈ l, x = c) :
    l.Pairwise (fun a b => a ≤ b ∧ b ≤ a + 1) := by
  induction l with
  | nil => exact List.Pairwise.nil
  | cons x rest ih =>
    refine List.Pairwise.cons ?_ (ih fun y hy => h y (List.mem_cons_of_mem _ hy))
    intro y hy
    rw [h x (List.mem_cons_self _ _), h y (List.mem_cons_of_mem _ hy)]
    omega

theorem Inv_expand {edges : List GraphEdge} {depth : Nat}
    {VD q : List (String × Nat)} {v : List String} {id : String} {d : Nat}
    (hInv : Inv edges depth VD ((id, d) :: q) v) :
    Inv edges depth (VD ++ (scanEdges id d edges v).2)
      (q ++ (scanEdges id d edges v).2) (scanEdges id d edges v).1 := by
  have hP := scanEdges_pushes_spec id d edges v
  have hnd := scanEdges_pushes_nodup id d edges v
  have hveq := scanEdges_visited_eq id d edges v
  have hcov := scanEdges_covers id d edges v
  obtain ⟨v_eq, q_sub, vd_nodup, q_nodup, q_sorted, depth_bound, closure⟩ := hInv
  have hidVD : (id, d) ∈ VD := q_sub (id, d) (List.mem_cons_self _ _)
  have hqv : ∀ p ∈ q, p.1 ∈ v := by
    intro p hp
    rw [v_eq]
    exact List.mem_map.mpr ⟨p, q_sub p (List.mem_cons_of_mem _ hp), rfl⟩
  have head_rel : ∀ e ∈ q.map Prod.snd, d ≤ e ∧ e ≤ d + 1 := by
    have := q_sorted
    simp only [List.map_cons] at this
    exact (List.pairwise_cons.mp this).1
  have hPid_not_v : ∀ a ∈ (scanEdges id d edges v).2.map Prod.fst, a ∉ v := by
    intro a ha hav
    obtain ⟨p, hp, hpa⟩ := List.mem_map.mp ha
    exact (hP p hp).2.1 (hpa ▸ hav)
  refine ⟨?_, ?_, ?_, ?_, ?_, ?_, ?_⟩
  · rw [hveq, v_eq, List.map_append]
  · intro p hp
    rcases List.mem_append.mp hp with hp | hp
    · exact List.mem_append_left _ (q_sub p (List.mem_cons_of_mem _ hp))
    · exact List.mem_append_right _ hp
  · rw [List.map_append, List.nodup_append]
    refine ⟨vd_nodup, hnd, ?_⟩
    intro a ha hb
    exact hPid_not_v a hb (v_eq ▸ ha)
  · rw [List.map_append, List.nodup_append]
    refine ⟨(List.nodup_cons.mp (by simpa using q_nodup)).2, hnd, ?_⟩
    intro a ha hb
    obtain ⟨p, hp, hpa⟩ := List.mem_map.mp ha
    exact hPid_not_v a hb (hpa ▸ hqv p hp)
  · rw [List.map_append, List.pairwise_append]
    refine ⟨List.Pairwise.of_cons (by simpa using q_sorted), ?_, ?_⟩
    · exact pairwise_levels_of_const fun x hx => by
        obtain ⟨p, hp, hpx⟩ := List.mem_map.mp hx
        exact hpx ▸ (hP p hp).1
    · intro a ha b hb
      obtain ⟨p, hp, hpb⟩ := List.mem_map.mp hb
      have hb' : b = d + 1 := hpb ▸ (hP p hp).1
      have ha' := head_rel a ha
      omega
  · intro p hp p' hp'
    rcases List.mem_append.mp hp with hp | hp <;>
      rcases List.mem_append.mp hp' with hp' | hp'
    · exact depth_bound p hp p' (List.mem_cons_of_mem _ hp')
    · have h1 : p.2 ≤ d + 1 := depth_bound p hp (id, d) (List.mem_cons_self _ _)
      have h2 : p'.2 = d + 1 := (hP p' hp').1
      omega
    · have h1 : p.2 = d + 1 := (hP p hp).1
      have h2 := head_rel p'.2 (List.mem_map.mpr ⟨p', hp', rfl⟩)
      omega
    · have h1 : p.2 = d + 1 := (hP p hp).1
      have h2 : p'.2 = d + 1 := (hP p' hp').1
      omega
  · intro p hp hpq hpd u hadj
    rcases List.mem_append.mp hp with hp | hp
    · by_cases hx : p.1 = id
      · have hp2 : p.2 = d := by
          have hmem : (p.1, p.2) ∈ VD := by simpa using hp
          rw [hx] at hmem
          exact snd_eq_of_keys_nodup vd_nodup hmem hidVD
        have hu : u ∈ (scanEdges id d edges v).1 := hcov u (hx ▸ hadj)
        rw [hveq] at hu
        rcases List.mem_append.mp hu with hu | hu
        · rw [v_eq] at hu
          obtain ⟨pu, hpu, hpu1⟩ := List.mem_map.mp hu
          refine ⟨pu.2, ?_, List.mem_append_left _ ?_⟩
          · have := depth_bound pu hpu (id, d) (List.mem_cons_self _ _)
            omega
          · rw [← hpu1]
            exact hpu
        · obtain ⟨pp, hpp, hpp1⟩ := List.mem_map.mp hu
          refine ⟨d + 1, by omega, List.mem_append_right _ ?_⟩
          have hpp2 : pp.2 = d + 1 := (hP pp hpp).1
          have : pp = (u, d + 1) := by
            rw [← hpp1, ← hpp2]
          exact this ▸ hpp
      · have hnotq : p.1 ∉ ((id, d) :: q).map Prod.fst := by
          simp only [List.map_cons, List.mem_cons]
          rintro (h | h)
          · exact hx h
          · exact hpq (by
              rw [List.map_append]
              exact List.mem_append_left _ h)
        obtain ⟨e, he, hmem⟩ := closure p hp hnotq hpd u hadj
        exact ⟨e, he, List.mem_append_left _ hmem⟩
    · exfalso
      apply hpq
      rw [List.map_append]
      exact List.mem_append_right _ (List.mem_map.mpr ⟨p, hp, rfl⟩)

theorem Inv_nil_reach {edges : List GraphEdge} {depth : Nat}
    {VD : List (String × Nat)} {v : List String}
    (hInv : Inv edges depth VD [] v) :
    ∀ n (w : String) (e : Nat) (y : String), (w, e) ∈ VD → e + n ≤ depth →
      reachFrom edges w n y → y ∈ v := by
  intro n
  induction n with
  | zero =>
    intro w e y hw _ hr
    have hyw : y = w := hr
    subst hyw
    rw [hInv.v_eq]
    exact List.mem_map.mpr ⟨(y, e), hw, rfl⟩
  | succ n ih =>
    intro w e y hw hle hr
    rcases (show y = w ∨ ∃ z, adj edges w z ∧ reachFrom edges z n y from hr)
        with rfl | ⟨z, hadj, hz⟩
    · rw [hInv.v_eq]
      exact List.mem_map.mpr ⟨(y, e), hw, rfl⟩
    · obtain ⟨e', he', hmem⟩ :=
        hInv.closure (w, e) hw (by simp) (by omega) z hadj
      exact ih z e' y hmem (by omega) hz

theorem bfsLoopFuel_complete (edges : List GraphEdge) (depth : Nat) :
    ∀ fuel (q VD : List (String × Nat)) (v r : List String),
      Inv edges depth VD q v →
      bfsLoopFuel edges depth fuel q v = some r →
      ∀ (w : String) (e n : Nat) (y : String),
        (w, e) ∈ VD → e + n ≤ depth → reachFrom edges w n y → y ∈ r := by
  intro fuel
  induction fuel with
  | zero =>
    intro q VD v r hInv h w e n y hw hle hr
    cases q with
    | nil =>
      rw [bfsLoopFuel_nil, Option.some_inj] at h
      subst h
      exact Inv_nil_reach hInv n w e y hw hle hr
    | cons p q => cases h
  | succ fuel ih =>
    intro q VD v r hInv h w e n y hw hle hr
    cases q with
    | nil =>
      rw [bfsLoopFuel_nil, Option.some_inj] at h
      subst h
      exact Inv_nil_reach hInv n w e y hw hle hr
    | cons p q =>
      obtain ⟨id, d⟩ := p
      rw [bfsLoopFuel_succ_cons] at h
      by_cases hd : depth ≤ d
      · rw [if_pos hd] at h
        exact ih q VD v r (Inv_skip hInv hd) h w e n y hw hle hr
      · rw [if_neg hd] at h
        exact ih _ _ _ r (Inv_expand hInv) h w e n y
          (List.mem_append_left _ hw) hle hr

theorem Inv_init (edges : List GraphEdge) (depth : Nat) (nodeId : String) :
    Inv edges depth [(nodeId, 0)] [(nodeId, 0)] [nodeId] := by
  refine ⟨by simp, fun p hp => hp, by simp, by simp, by simp, ?_, ?_⟩
  · intro p hp p' hp'
    simp only [List.mem_singleton] at hp
    subst hp
    omega
  · intro p hp hpq
    exfalso
    simp only [List.mem_singleton] at hp
    subst hp
    simp at hpq

/-- The central correctness property: membership in `getNeighborhood` is
exactly reachability within `depth` undirected hops. -/
theorem mem_getNeighborhood_iff (nodeId : String) (depth : Nat)
    (edges : List GraphEdge) (y : String) :
    y ∈ getNeighborhood nodeId depth edges ↔ reachFrom edges nodeId depth y := by
  have hsome := getNeighborhood_eq_some nodeId depth edges
  constructor
  · intro hy
    rcases bfsLoopFuel_sound edges depth _ _ _ _ hsome y hy with
        hv | ⟨x, d, n, hq, hn, hr⟩
    · simp only [List.mem_singleton] at hv
      subst hv
      exact reachFrom_self edges y depth
    · simp only [List.mem_singleton, Prod.mk.injEq] at hq
      obtain ⟨rfl, rfl⟩ := hq
      exact reachFrom_mono (by omega) hr
  · intro hr
    exact bfsLoopFuel_complete edges depth _ _ _ _ _
      (Inv_init edges depth nodeId) hsome nodeId 0 depth y
      (List.mem_singleton.mpr rfl) (by omega) hr

theorem bfsLoopFuel_nodup (edges : List GraphEdge) (depth : Nat) :
    ∀ fuel (q : List (String × Nat)) (v r : List String),
      bfsLoopFuel edges depth fuel q v = some r → v.Nodup → r.Nodup := by
  intro fuel
  induction fuel with
  | zero =>
    intro q v r h hv
    cases q with
    | nil =>
      rw [bfsLoopFuel_nil, Option.some_inj] at h
      exact h ▸ hv
    | cons p q => cases h
  | succ fuel ih =>
    intro q v r h hv
    cases q with
    | nil =>
      rw [bfsLoopFuel_nil, Option.some_inj] at h
      exact h ▸ hv
    | cons p q =>
      obtain ⟨id, d⟩ := p
      rw [bfsLoopFuel_succ_cons] at h
      by_cases hd : depth ≤ d
      · rw [if_pos hd] at h
        exact ih q v r h hv
      · rw [if_neg hd] at h
        refine ih _ _ r h ?_
        rw [scanEdges_visited_eq, List.nodup_append]
        refine ⟨hv, scanEdges_pushes_nodup id d edges v, ?_⟩
        intro a ha hb
        obtain ⟨p, hp, hpa⟩ := List.mem_map.mp hb
        exact (scanEdges_pushes_spec id d edges v p hp).2.1 (hpa ▸ ha)

theorem getNeighborhood_nodup (nodeId : String) (depth : Nat)
    (edges : List GraphEdge) : (getNeighborhood nodeId depth edges).Nodup :=
  bfsLoopFuel_nodup edges depth _ _ _ _
    (getNeighborhood_eq_some nodeId depth edges) (by simp)

theorem bfsLoopFuel_visited_sub (edges : List GraphEdge) (depth : Nat) :
    ∀ fuel (q : List (String × Nat)) (v r : List String),
      bfsLoopFuel edges depth fuel q v = some r → ∀ x ∈ v, x ∈ r := by
  intro fuel
  induction fuel with
  | zero =>
    intro q v r h x hx
    cases q with
    | nil =>
      rw [bfsLoopFuel_nil, Option.some_inj] at h
      exact h ▸ hx
    | cons p q => cases h
  | succ fuel ih =>
    intro q v r h x hx
    cases q with
    | nil =>
      rw [bfsLoopFuel_nil, Option.some_inj] at h
      exact h ▸ hx
    | cons p q =>
      obtain ⟨id, d⟩ := p
      rw [bfsLoopFuel_succ_cons] at h
      by_cases hd : depth ≤ d
      · rw [if_pos hd] at h
        exact ih q v r h x hx
      · rw [if_neg hd] at h
        exact ih _ _ r h x (scanEdges_sub id d edges v x hx)

theorem bfsLoopFuel_visited_bound (edges : List GraphEdge) (depth : Nat) :
    ∀ fuel (q : List (String × Nat)) (v r : List String),
      bfsLoopFuel edges depth fuel q v = some r →
      ∀ x ∈ r, x ∈ v ∨ x ∈ edgeIds edges := by
  intro fuel
  induction fuel with
  | zero =>
    intro q v r h x hx
    cases q with
    | nil =>
      rw [bfsLoopFuel_nil, Option.some_inj] at h
      exact Or.inl (h ▸ hx)
    | cons p q => cases h
  | succ fuel ih =>
    intro q v r h x hx
    cases q with
    | nil =>
      rw [bfsLoopFuel_nil, Option.some_inj] at h
      exact Or.inl (h ▸ hx)
    | cons p q =>
      obtain ⟨id, d⟩ := p
      rw [bfsLoopFuel_succ_cons] at h
      by_cases hd : depth ≤ d
      · rw [if_pos hd] at h
        exact ih q v r h x hx
      · rw [if_neg hd] at h
        rcases ih _ _ r h x hx with hv | he
        · rw [scanEdges_visited_eq] at hv
          rcases List.mem_append.mp hv with hv | hv
          · exact Or.inl hv
          · obtain ⟨p, hp, hpa⟩ := List.mem_map.mp hv
            exact Or.inr (hpa ▸
              adj_mem_edgeIds (scanEdges_pushes_spec id d edges v p hp).2.2)
        · exact Or.inr he

/-! ## The `getDirectNeighbors` function (`graph.ts`) -/

/-- JavaScript `Set.add`: append the element only when absent. -/
def setAdd (v : List String) (x : String) : List String :=
  if x ∈ v then v else v ++ [x]

/-- One iteration of the `for` loop of `getDirectNeighbors`: add the target
if `nodeId` is the source, then add the source if `nodeId` is the target. -/
def directStep (nodeId : String) (e : GraphEdge) (acc : List String) :
    List String :=
  let a1 := if e.source = nodeId then setAdd acc e.target else acc
  if e.target = nodeId then setAdd a1 e.source else a1

/-- The `for` loop of `getDirectNeighbors` over the edge list. -/
def directLoop (nodeId : String) (edges : List GraphEdge)
    (acc : List String) : List String :=
  match edges with
  | [] => acc
  | e :: rest => directLoop nodeId rest (directStep nodeId e acc)

/-- The `getDirectNeighbors` function of `graph.ts`: single pass over the
edges, seeded with `nodeId`. -/
def getDirectNeighbors (nodeId : String) (edges : List GraphEdge) :
    List String :=
  directLoop nodeId edges [nodeId]

theorem stepEdge_fst_eq_directStep (id : String) (d : Nat) (e : GraphEdge)
    (v : List String) : (stepEdge id d e v).1 = directStep id e v := by
  simp only [stepEdge, directStep, setAdd]
  split_ifs <;> first | rfl | tauto

theorem scanEdges_fst_eq_directLoop (id : String) (d : Nat) :
    ∀ (edges : List GraphEdge) (v : List String),
      (scanEdges id d edges v).1 = directLoop id edges v := by
  intro edges
  induction edges with
  | nil =>
    intro v
    rfl
  | cons e rest ih =>
    intro v
    simp only [scanEdges, directLoop]
    rw [ih, stepEdge_fst_eq_directStep]

theorem bfsLoopFuel_all_deep (edges : List GraphEdge) (depth : Nat) :
    ∀ fuel (q : List (String × Nat)) (v : List String),
      (∀ p ∈ q, depth ≤ p.2) → q.length ≤ fuel →
      bfsLoopFuel edges depth fuel q v = some v := by
  intro fuel
  induction fuel with
  | zero =>
    intro q v hdeep hlen
    cases q with
    | nil => exact bfsLoopFuel_nil _ _ _ _
    | cons p q => simp at hlen
  | succ fuel ih =>
    intro q v hdeep hlen
    cases q with
    | nil => exact bfsLoopFuel_nil _ _ _ _
    | cons p q =>
      obtain ⟨id, d⟩ := p
      rw [bfsLoopFuel_succ_cons,
        if_pos (hdeep (id, d) (List.mem_cons_self _ _))]
      refine ih q v (fun p hp => hdeep p (List.mem_cons_of_mem _ hp)) ?_
      simp only [List.length_cons] at hlen
      omega

theorem bfsFuel_init_eq (edges : List GraphEdge) (nodeId : String) :
    bfsFuel edges [nodeId] [(nodeId, 0)] =
      2 * ((edgeIds edges).toFinset \ [nodeId].toFinset).card + 1 := rfl

theorem getNeighborhood_one (nodeId : String) (edges : List GraphEdge) :
    getNeighborhood nodeId 1 edges = (scanEdges nodeId 0 edges [nodeId]).1 := by
  rw [getNeighborhood, bfsFuel_init_eq, bfsLoopFuel_succ_cons]
  rw [if_neg (by omega)]
  rw [List.nil_append]
  rw [bfsLoopFuel_all_deep edges 1 _ _ _ ?deep ?len]
  · rfl
  case deep =>
    intro p hp
    rw [(scanEdges_pushes_spec nodeId 0 edges [nodeId] p hp).1]
  case len =>
    have := scanEdges_measure nodeId 0 edges [nodeId]
    omega

theorem getDirectNeighbors_eq_one_hop (nodeId : String)
    (edges : List GraphEdge) :
    getDirectNeighbors nodeId edges = getNeighborhood nodeId 1 edges := by
  rw [getNeighborhood_one, scanEdges_fst_eq_directLoop, getDirectNeighbors]

theorem getNeighborhood_zero (nodeId : String) (edges : List GraphEdge) :
    getNeighborhood nodeId 0 edges = [nodeId] := by
  rw [getNeighborhood, bfsFuel_init_eq, bfsLoopFuel_succ_cons,
    if_pos (by omega), bfsLoopFuel_nil]
  rfl

theorem scanEdges_no_incident (id : String) (d : Nat) :
    ∀ (edges : List GraphEdge) (v : List String),
      (∀ e ∈ edges, e.source ≠ id ∧ e.target ≠ id) →
      scanEdges id d edges v = (v, []) := by
  intro edges
  induction edges with
  | nil =>
    intro v _
    rfl
  | cons e rest ih =>
    intro v hno
    have he := hno e (List.mem_cons_self _ _)
    have hstep : stepEdge id d e v = (v, []) := by
      simp [stepEdge, he.1, he.2]
    simp only [scanEdges, hstep]
    rw [ih v (fun f hf => hno f (List.mem_cons_of_mem _ hf))]
    rfl

theorem getNeighborhood_isolated (nodeId : String) (depth : Nat)
    (edges : List GraphEdge)
    (hno : ∀ e ∈ edges, e.source ≠ nodeId ∧ e.target ≠ nodeId) :
    getNeighborhood nodeId depth edges = [nodeId] := by
  rw [getNeighborhood, bfsFuel_init_eq, bfsLoopFuel_succ_cons]
  by_cases hd : depth ≤ 0
  · rw [if_pos hd, bfsLoopFuel_nil]
    rfl
  · rw [if_neg hd, scanEdges_no_incident nodeId 0 edges [nodeId] hno]
    rw [List.append_nil, bfsLoopFuel_nil]
    rfl

/-! ## The BFS re-implemented inline in the interactive viewer component

The viewer component defines its own `getNeighborhood` inside a
`useCallback`; its loop body is the same algorithm, except that it
destructures `queue.shift()!` directly instead of guarding against
`undefined`.  The definitions below transcribe that inline copy. -/

/-- Per-edge body of the viewer's inline BFS loop. -/
def viewerStepEdge (id : String) (d : Nat) (e : GraphEdge)
    (visited : List String) : List String × List (String × Nat) :=
  let st1 :=
    if e.source = id ∧ e.target ∉ visited then
      (visited ++ [e.target], [(e.target, d + 1)])
    else (visited, ([] : List (String × Nat)))
  if e.target = id ∧ e.source ∉ st1.1 then
    (st1.1 ++ [e.source], st1.2 ++ [(e.source, d + 1)])
  else st1

/-- The viewer's inline `for (const edge of edgeList)` loop. -/
def viewerScanEdges (id : String) (d : Nat) (edgeList : List GraphEdge)
    (visited : List String) : List String × List (String × Nat) :=
  match edgeList with
  | [] => (visited, [])
  | e :: rest =>
    let st2 := viewerStepEdge id d e visited
    let st3 := viewerScanEdges id d rest st2.1
    (st3.1, st2.2 ++ st3.2)

/-- The viewer's inline `while` loop, with the same fuel discipline as
`bfsLoopFuel`. -/
def viewerBfsLoopFuel (edgeList : List GraphEdge) (depth : Nat) :
    Nat → List (String × Nat) → List String → Option (List String)
  | _, [], visited => some visited
  | 0, _ :: _, _ => none
  | fuel + 1, (id, d) :: queue, visited =>
    if depth ≤ d then viewerBfsLoopFuel edgeList depth fuel queue visited
    else
      viewerBfsLoopFuel edgeList depth fuel
        (queue ++ (viewerScanEdges id d edgeList visited).2)
        (viewerScanEdges id d edgeList visited).1

/-- The viewer's inline `getNeighborhood`. -/
def viewerGetNeighborhood (nodeId : String) (depth : Nat)
    (edgeList : List GraphEdge) : List String :=
  (viewerBfsLoopFuel edgeList depth (bfsFuel edgeList [nodeId] [(nodeId, 0)])
    [(nodeId, 0)] [nodeId]).getD [nodeId]

theorem viewerStepEdge_eq (id : String) (d : Nat) (e : GraphEdge)
    (v : List String) : viewerStepEdge id d e v = stepEdge id d e v := rfl

theorem viewerScanEdges_eq (id : String) (d : Nat) :
    ∀ (edges : List GraphEdge) (v : List String),
      viewerScanEdges id d edges v = scanEdges id d edges v := by
  intro edges
  induction edges with
  | nil =>
    intro v
    rfl
  | cons e rest ih =>
    intro v
    simp only [viewerScanEdges, scanEdges, viewerStepEdge_eq, ih]

theorem viewerBfsLoopFuel_eq (edges : List GraphEdge) (depth : Nat) :
    ∀ fuel (q : List (String × Nat)) (v : List String),
      viewerBfsLoopFuel edges depth fuel q v = bfsLoopFuel edges depth fuel q v := by
  intro fuel
  induction fuel with
  | zero =>
    intro q v
    cases q with
    | nil => rfl
    | cons p q => rfl
  | succ fuel ih =>
    intro q v
    cases q with
    | nil => rfl
    | cons p q =>
      obtain ⟨id, d⟩ := p
      show (if depth ≤ d then viewerBfsLoopFuel edges depth fuel q v
        else viewerBfsLoopFuel edges depth fuel
          (q ++ (viewerScanEdges id d edges v).2)
          (viewerScanEdges id d edges v).1) = _
      rw [bfsLoopFuel_succ_cons]
      by_cases hd : depth ≤ d
      · rw [if_pos hd, if_pos hd, ih]
      · rw [if_neg hd, if_neg hd, viewerScanEdges_eq, ih]

theorem viewerGetNeighborhood_eq (nodeId : String) (depth : Nat)
    (edges : List GraphEdge) :
    viewerGetNeighborhood nodeId depth edges =
      getNeighborhood nodeId depth edges := by
  rw [viewerGetNeighborhood, getNeighborhood, viewerBfsLoopFuel_eq]

/-! ## Only the edge endpoints matter to the traversal -/

theorem edgeIds_endpoints_congr :
    ∀ (es1 es2 : List GraphEdge),
      es1.map (fun e => (e.source, e.target)) =
        es2.map (fun e => (e.source, e.target)) →
      edgeIds es1 = edgeIds es2 := by
  intro es1
  induction es1 with
  | nil =>
    intro es2 h
    cases es2 with
    | nil => rfl
    | cons f rest => simp at h
  | cons e rest ih =>
    intro es2 h
    cases es2 with
    | nil => simp at h
    | cons f rest2 =>
      simp only [List.map_cons, List.cons.injEq, Prod.mk.injEq] at h
      obtain ⟨⟨hs, ht⟩, htl⟩ := h
      simp only [edgeIds, hs, ht]
      rw [ih rest2 htl]

theorem stepEdge_endpoints_congr (id : String) (d : Nat) {e f : GraphEdge}
    (hs : e.source = f.source) (ht : e.target = f.target)
    (v : List String) : stepEdge id d e v = stepEdge id d f v := by
  simp only [stepEdge, hs, ht]

theorem scanEdges_endpoints_congr (id : String) (d : Nat) :
    ∀ (es1 es2 : List GraphEdge) (v : List String),
      es1.map (fun e => (e.source, e.target)) =
        es2.map (fun e => (e.source, e.target)) →
      scanEdges id d es1 v = scanEdges id d es2 v := by
  intro es1
  induction es1 with
  | nil =>
    intro es2 v h
    cases es2 with
    | nil => rfl
    | cons f rest => simp at h
  | cons e rest ih =>
    intro es2 v h
    cases es2 with
    | nil => simp at h
    | cons f rest2 =>
      simp only [List.map_cons, List.cons.injEq, Prod.mk.injEq] at h
      obtain ⟨⟨hs, ht⟩, htl⟩ := h
      simp only [scanEdges]
      rw [stepEdge_endpoints_congr id d hs ht, ih rest2 _ htl]

theorem bfsLoopFuel_endpoints_congr (es1 es2 : List GraphEdge) (depth : Nat)
    (h : es1.map (fun e => (e.source, e.target)) =
      es2.map (fun e => (e.source, e.target))) :
    ∀ fuel (q : List (String × Nat)) (v : List String),
      bfsLoopFuel es1 depth fuel q v = bfsLoopFuel es2 depth fuel q v := by
  intro fuel
  induction fuel with
  | zero =>
    intro q v
    cases q with
    | nil => rfl
    | cons p q => rfl
  | succ fuel ih =>
    intro q v
    cases q with
    | nil => rfl
    | cons p q =>
      obtain ⟨id, d⟩ := p
      rw [bfsLoopFuel_succ_cons, bfsLoopFuel_succ_cons]
      by_cases hd : depth ≤ d
      · rw [if_pos hd, if_pos hd, ih]
      · rw [if_neg hd, if_neg hd, scanEdges_endpoints_congr id d es1 es2 v h, ih]

theorem getNeighborhood_endpoints_congr (es1 es2 : List GraphEdge)
    (h : es1.map (fun e => (e.source, e.target)) =
      es2.map (fun e => (e.source, e.target)))
    (nodeId : String) (depth : Nat) :
    getNeighborhood nodeId depth es1 = getNeighborhood nodeId depth es2 := by
  rw [getNeighborhood, getNeighborhood, bfsLoopFuel_endpoints_congr es1 es2 depth h]
  have : bfsFuel es1 [nodeId] [(nodeId, 0)] = bfsFuel es2 [nodeId] [(nodeId, 0)] := by
    rw [bfsFuel, bfsFuel, edgeIds_endpoints_congr es1 es2 h]
  rw [this]

/-! ## Instrumented loop: which nodes get expanded

To reason about the running time of `getNeighborhood` we instrument the loop
with the list of node ids that get expanded (dequeued with `d < depth` and
scanned against the whole edge list), in expansion order.  Every expansion
performs exactly one pass over the entire edge list (`scanEdges` recurses
once per edge), so the number of edge inspections of a call is the number of
expansions times the number of edges. -/

/-- The BFS loop of `getNeighborhood`, additionally returning the list of
expanded node ids in order. -/
def bfsLoopTrace (edges : List GraphEdge) (depth : Nat) :
    Nat → List (String × Nat) → List String →
      Option (List String × List String)
  | _, [], visited => some (visited, [])
  | 0, _ :: _, _ => none
  | fuel + 1, (id, d) :: queue, visited =>
    if depth ≤ d then bfsLoopTrace edges depth fuel queue visited
    else
      (bfsLoopTrace edges depth fuel
        (queue ++ (scanEdges id d edges visited).2)
        (scanEdges id d edges visited).1).map (fun p => (p.1, id :: p.2))

theorem bfsLoopTrace_nil (edges : List GraphEdge) (depth fuel : Nat)
    (v : List String) : bfsLoopTrace edges depth fuel [] v = some (v, []) := by
  cases fuel <;> rfl

theorem bfsLoopTrace_zero_cons (edges : List GraphEdge) (depth : Nat)
    (p : String × Nat) (q : List (String × Nat)) (v : List String) :
    bfsLoopTrace edges depth 0 (p :: q) v = none := rfl

theorem bfsLoopTrace_succ_cons (edges : List GraphEdge) (depth fuel : Nat)
    (id : String) (d : Nat) (q : List (String × Nat)) (v : List String) :
    bfsLoopTrace edges depth (fuel + 1) ((id, d) :: q) v =
      if depth ≤ d then bfsLoopTrace edges depth fuel q v
      else
        (bfsLoopTrace edges depth fuel (q ++ (scanEdges id d edges v).2)
          (scanEdges id d edges v).1).map (fun p => (p.1, id :: p.2)) := rfl

theorem bfsLoopTrace_fst (edges : List GraphEdge) (depth : Nat) :
    ∀ fuel (q : List (String × Nat)) (v : List String),
      (bfsLoopTrace edges depth fuel q v).map Prod.fst =
        bfsLoopFuel edges depth fuel q v := by
  intro fuel
  induction fuel with
  | zero =>
    intro q v
    cases q with
    | nil => rfl
    | cons p q => rfl
  | succ fuel ih =>
    intro q v
    cases q with
    | nil => rfl
    | cons p q =>
      obtain ⟨id, d⟩ := p
      rw [bfsLoopTrace_succ_cons, bfsLoopFuel_succ_cons]
      by_cases hd : depth ≤ d
      · rw [if_pos hd, if_pos hd, ih]
      · rw [if_neg hd, if_neg hd, Option.map_map, ← ih]
        congr 1

theorem bfsLoopTrace_expanded_nodup (edges : List GraphEdge) (depth : Nat) :
    ∀ fuel (q : List (String × Nat)) (v r ex : List String),
      bfsLoopTrace edges depth fuel q v = some (r, ex) →
      (q.map Prod.fst).Nodup → (∀ p ∈ q, p.1 ∈ v) →
      ex.Nodup ∧ ∀ z ∈ ex, z ∈ q.map Prod.fst ∨ z ∉ v := by
  intro fuel
  induction fuel with
  | zero =>
    intro q v r ex h hnd hsub
    cases q with
    | nil =>
      rw [bfsLoopTrace_nil, Option.some_inj] at h
      obtain ⟨rfl, rfl⟩ := Prod.mk.injEq _ _ _ _ |>.mp h.symm
      exact ⟨List.nodup_nil, fun z hz => absurd hz (List.not_mem_nil z)⟩
    | cons p q => cases h
  | succ fuel ih =>
    intro q v r ex h hnd hsub
    cases q with
    | nil =>
      rw [bfsLoopTrace_nil, Option.some_inj] at h
      obtain ⟨rfl, rfl⟩ := Prod.mk.injEq _ _ _ _ |>.mp h.symm
      exact ⟨List.nodup_nil, fun z hz => absurd hz (List.not_mem_nil z)⟩
    | cons p q =>
      obtain ⟨id, d⟩ := p
      rw [bfsLoopTrace_succ_cons] at h
      have hidv : id ∈ v := hsub (id, d) (List.mem_cons_self _ _)
      have hndq : (q.map Prod.fst).Nodup := by
        simp only [List.map_cons, List.nodup_cons] at hnd
        exact hnd.2
      have hidq : id ∉ q.map Prod.fst := by
        simp only [List.map_cons, List.nodup_cons] at hnd
        exact hnd.1
      by_cases hd : depth ≤ d
      · rw [if_pos hd] at h
        obtain ⟨hex, hz⟩ := ih q v r ex h hndq
          (fun p hp => hsub p (List.mem_cons_of_mem _ hp))
        refine ⟨hex, fun z hzz => ?_⟩
        rcases hz z hzz with hmem | hnv
        · exact Or.inl (by
            simp only [List.map_cons, List.mem_cons]
            exact Or.inr hmem)
        · exact Or.inr hnv
      · rw [if_neg hd] at h
        obtain ⟨⟨r', ex'⟩, htr, hpr⟩ := Option.map_eq_some'.mp h
        simp only [Prod.mk.injEq] at hpr
        obtain ⟨rfl, rfl⟩ := hpr
        have hPn : ∀ a ∈ (scanEdges id d edges v).2.map Prod.fst, a ∉ v := by
          intro a ha hav
          obtain ⟨p, hp, hpa⟩ := List.mem_map.mp ha
          exact (scanEdges_pushes_spec id d edges v p hp).2.1 (hpa ▸ hav)
        have hnd' : ((q ++ (scanEdges id d edges v).2).map Prod.fst).Nodup := by
          rw [List.map_append, List.nodup_append]
          refine ⟨hndq, scanEdges_pushes_nodup id d edges v, ?_⟩
          intro a ha hb
          obtain ⟨p, hp, hpa⟩ := List.mem_map.mp ha
          exact hPn a hb (hpa ▸ hsub p (List.mem_cons_of_mem _ hp))
        have hsub' : ∀ p ∈ q ++ (scanEdges id d edges v).2,
            p.1 ∈ (scanEdges id d edges v).1 := by
          intro p hp
          rcases List.mem_append.mp hp with hp | hp
          · exact scanEdges_sub id d edges v p.1
              (hsub p (List.mem_cons_of_mem _ hp))
          · rw [scanEdges_visited_eq]
            exact List.mem_append_right _ (List.mem_map.mpr ⟨p, hp, rfl⟩)
        obtain ⟨hex', hz'⟩ := ih _ _ r' ex' htr hnd' hsub'
        have hidex : id ∉ ex' := by
          intro hmem
          rcases hz' id hmem with hqs | hnv
          · rw [List.map_append] at hqs
            rcases List.mem_append.mp hqs with hh | hh
            · exact hidq hh
            · exact hPn id hh hidv
          · exact hnv (scanEdges_sub id d edges v id hidv)
        refine ⟨List.nodup_cons.mpr ⟨hidex, hex'⟩, ?_⟩
        intro z hz
        rcases List.mem_cons.mp hz with rfl | hz
        · exact Or.inl (by simp)
        · rcases hz' z hz with hqs | hnv
          · rw [List.map_append] at hqs
            rcases List.mem_append.mp hqs with hh | hh
            · exact Or.inl (by
                simp only [List.map_cons, List.mem_cons]
                exact Or.inr hh)
            · exact Or.inr (hPn z hh)
          · exact Or.inr fun hv => hnv (scanEdges_sub id d edges v z hv)

theorem bfsLoopTrace_growth (edges : List GraphEdge) (depth : Nat) (B : Nat)
    (hB : ∀ (id : String) (d : Nat) (v : List String),
      (scanEdges id d edges v).2.length ≤ B) :
    ∀ fuel (q : List (String × Nat)) (v r ex : List String),
      bfsLoopTrace edges depth fuel q v = some (r, ex) →
      r.length ≤ v.length + B * ex.length := by
  intro fuel
  induction fuel with
  | zero =>
    intro q v r ex h
    cases q with
    | nil =>
      rw [bfsLoopTrace_nil, Option.some_inj] at h
      obtain ⟨rfl, rfl⟩ := Prod.mk.injEq _ _ _ _ |>.mp h.symm
      omega
    | cons p q => cases h
  | succ fuel ih =>
    intro q v r ex h
    cases q with
    | nil =>
      rw [bfsLoopTrace_nil, Option.some_inj] at h
      obtain ⟨rfl, rfl⟩ := Prod.mk.injEq _ _ _ _ |>.mp h.symm
      omega
    | cons p q =>
      obtain ⟨id, d⟩ := p
      rw [bfsLoopTrace_succ_cons] at h
      by_cases hd : depth ≤ d
      · rw [if_pos hd] at h
        exact ih q v r ex h
      · rw [if_neg hd] at h
        obtain ⟨⟨r', ex'⟩, htr, hpr⟩ := Option.map_eq_some'.mp h
        simp only [Prod.mk.injEq] at hpr
        obtain ⟨rfl, rfl⟩ := hpr
        have h1 := ih _ _ r' ex' htr
        have h2 : (scanEdges id d edges v).1.length =
            v.length + (scanEdges id d edges v).2.length := by
          rw [scanEdges_visited_eq, List.length_append, List.length_map]
        have h3 := hB id d v
        simp only [List.length_cons]
        have : B * (ex'.length + 1) = B * ex'.length + B := by ring
        omega

theorem bfsLoopTrace_expanded_sub (edges : List GraphEdge) (depth : Nat) :
    ∀ fuel (q : List (String × Nat)) (v r ex : List String),
      bfsLoopTrace edges depth fuel q v = some (r, ex) →
      (∀ p ∈ q, p.1 ∈ v) → ∀ z ∈ ex, z ∈ r := by
  intro fuel
  induction fuel with
  | zero =>
    intro q v r ex h _ z hz
    cases q with
    | nil =>
      rw [bfsLoopTrace_nil, Option.some_inj] at h
      obtain ⟨rfl, rfl⟩ := Prod.mk.injEq _ _ _ _ |>.mp h.symm
      cases hz
    | cons p q => cases h
  | succ fuel ih =>
    intro q v r ex h hsub z hz
    cases q with
    | nil =>
      rw [bfsLoopTrace_nil, Option.some_inj] at h
      obtain ⟨rfl, rfl⟩ := Prod.mk.injEq _ _ _ _ |>.mp h.symm
      cases hz
    | cons p q =>
      obtain ⟨id, d⟩ := p
      rw [bfsLoopTrace_succ_cons] at h
      by_cases hd : depth ≤ d
      · rw [if_pos hd] at h
        exact ih q v r ex h (fun p hp => hsub p (List.mem_cons_of_mem _ hp)) z hz
      · rw [if_neg hd] at h
        obtain ⟨⟨r', ex'⟩, htr, hpr⟩ := Option.map_eq_some'.mp h
        simp only [Prod.mk.injEq] at hpr
        obtain ⟨rfl, rfl⟩ := hpr
        rcases List.mem_cons.mp hz with rfl | hz
        · have hloop : bfsLoopFuel edges depth fuel
              (q ++ (scanEdges z d edges v).2)
              (scanEdges z d edges v).1 = some r' := by
            rw [← bfsLoopTrace_fst, htr]
            rfl
          exact bfsLoopFuel_visited_sub edges depth fuel _ _ r' hloop z
            (scanEdges_sub z d edges v z (hsub (z, d) (List.mem_cons_self _ _)))
        · refine ih _ _ r' ex' htr ?_ z hz
          intro p hp
          rcases List.mem_append.mp hp with hp | hp
          · exact scanEdges_sub id d edges v p.1
              (hsub p (List.mem_cons_of_mem _ hp))
          · rw [scanEdges_visited_eq]
            exact List.mem_append_right _ (List.mem_map.mpr ⟨p, hp, rfl⟩)

/-- The list of node ids expanded by `getNeighborhood nodeId depth edges`,
in expansion order. -/
def bfsExpanded (nodeId : String) (depth : Nat) (edges : List GraphEdge) :
    List String :=
  ((bfsLoopTrace edges depth (bfsFuel edges [nodeId] [(nodeId, 0)])
    [(nodeId, 0)] [nodeId]).getD ([nodeId], [])).2

/-- Number of edge inspections performed by
`getNeighborhood nodeId depth edges`: each expansion inspects every edge of
the list exactly once (`scanEdges` recurses once per edge, and each
recursion step examines exactly the head edge). -/
def edgeInspections (nodeId : String) (depth : Nat)
    (edges : List GraphEdge) : Nat :=
  (bfsExpanded nodeId depth edges).length * edges.length

theorem bfsLoopTrace_init_eq (nodeId : String) (depth : Nat)
    (edges : List GraphEdge) :
    bfsLoopTrace edges depth (bfsFuel edges [nodeId] [(nodeId, 0)])
        [(nodeId, 0)] [nodeId] =
      some (getNeighborhood nodeId depth edges,
        bfsExpanded nodeId depth edges) := by
  have hproj := bfsLoopTrace_fst edges depth
    (bfsFuel edges [nodeId] [(nodeId, 0)]) [(nodeId, 0)] [nodeId]
  rw [getNeighborhood_eq_some] at hproj
  cases htr : bfsLoopTrace edges depth (bfsFuel edges [nodeId] [(nodeId, 0)])
      [(nodeId, 0)] [nodeId] with
  | none => rw [htr] at hproj; cases hproj
  | some p =>
    rw [htr] at hproj
    simp only [Option.map_some', Option.some_inj] at hproj
    have hsnd : bfsExpanded nodeId depth edges = p.2 := by
      rw [bfsExpanded, htr]
      rfl
    rw [hsnd, ← hproj]

theorem bfsExpanded_nodup (nodeId : String) (depth : Nat)
    (edges : List GraphEdge) : (bfsExpanded nodeId depth edges).Nodup :=
  (bfsLoopTrace_expanded_nodup edges depth _ _ _ _ _
    (bfsLoopTrace_init_eq nodeId depth edges) (by simp)
    (by
      intro p hp
      simp only [List.mem_singleton] at hp
      subst hp
      simp)).1

theorem bfsExpanded_length_le (nodeId : String) (depth : Nat)
    (edges : List GraphEdge) :
    (bfsExpanded nodeId depth edges).length ≤ 1 + 2 * edges.length := by
  have hsub : ∀ z ∈ bfsExpanded nodeId depth edges,
      z ∈ nodeId :: edgeIds edges := by
    intro z hz
    have hzr : z ∈ getNeighborhood nodeId depth edges :=
      bfsLoopTrace_expanded_sub edges depth _ _ _ _ _
        (bfsLoopTrace_init_eq nodeId depth edges)
        (by
          intro p hp
          simp only [List.mem_singleton] at hp
          subst hp
          simp) z hz
    rcases bfsLoopFuel_visited_bound edges depth _ _ _ _
        (getNeighborhood_eq_some nodeId depth edges) z hzr with hv | he
    · simp only [List.mem_singleton] at hv
      exact hv ▸ List.mem_cons_self _ _
    · exact List.mem_cons_of_mem _ he
  have h1 : (bfsExpanded nodeId depth edges).length =
      (bfsExpanded nodeId depth edges).toFinset.card :=
    (List.toFinset_card_of_nodup (bfsExpanded_nodup nodeId depth edges)).symm
  have h2 : (bfsExpanded nodeId depth edges).toFinset ⊆
      (nodeId :: edgeIds edges).toFinset := by
    intro x hx
    rw [List.mem_toFinset] at hx
    rw [List.mem_toFinset]
    exact hsub x hx
  have h3 := Finset.card_le_card h2
  have h4 := List.toFinset_card_le (nodeId :: edgeIds edges)
  have h5 : (nodeId :: edgeIds edges).length = 1 + 2 * edges.length := by
    rw [List.length_cons, length_edgeIds]
    omega
  omega

/-! ## A family of inputs on which the edge-inspection count is quadratic

The chain graph with `n` edges over `n + 1` distinct node ids, traversed from
one end with hop bound `n`, expands at least `n / 4` nodes, and each
expansion inspects all `n` edges. -/

def chainChar : Char := ('a')

/-- Node `i` of the chain is named by `i` repetitions of a fixed character,
which makes distinct indices give distinct ids. -/
def chainName (i : Nat) : String := String.mk (List.replicate i chainChar)

def chainEdge (i : Nat) : GraphEdge :=
  { source := chainName i, target := chainName (i + 1),
    kind := EdgeKind.influence }

def chainEdges (n : Nat) : List GraphEdge := (List.range n).map chainEdge

theorem chainName_injective : Function.Injective chainName := by
  intro i j h
  have h2 : (chainName i).length = (chainName j).length := by rw [h]
  simpa [chainName, String.length] using h2

theorem chainEdges_length (n : Nat) : (chainEdges n).length = n := by
  simp [chainEdges]

theorem chain_adj {n i : Nat} (h : i < n) :
    adj (chainEdges n) (chainName i) (chainName (i + 1)) := by
  refine ⟨chainEdge i, ?_, Or.inl ⟨rfl, rfl⟩⟩
  exact List.mem_map.mpr ⟨i, List.mem_range.mpr h, rfl⟩

theorem chain_reach_aux (n : Nat) :
    ∀ i, i ≤ n → reachFrom (chainEdges n) (chainName 0) i (chainName i) := by
  intro i
  induction i with
  | zero => intro _; exact rfl
  | succ i ih =>
    intro hi
    exact reachFrom_snoc (ih (by omega)) (chain_adj (by omega))

theorem chain_reach (n : Nat) (i : Nat) (hi : i ≤ n) :
    reachFrom (chainEdges n) (chainName 0) n (chainName i) :=
  reachFrom_mono hi (chain_reach_aux n i hi)

theorem chain_countP_le (n : Nat) (id : String) :
    (chainEdges n).countP (fun e => e.source == id || e.target == id) ≤ 2 := by
  rw [chainEdges, List.countP_map]
  by_cases hid : ∃ j, chainName j = id
  · obtain ⟨j, hj⟩ := hid
    have hsub : ∀ i ∈ (List.range n).filter
        ((fun e => e.source == id || e.target == id) ∘ chainEdge),
        i ∈ [j, j - 1] := by
      intro i hi
      obtain ⟨_, hp⟩ := List.mem_filter.mp hi
      simp only [Function.comp, chainEdge, Bool.or_eq_true, beq_iff_eq] at hp
      rcases hp with hp | hp
      · have : i = j := chainName_injective (hp.trans hj.symm)
        simp [this]
      · have : i + 1 = j := chainName_injective (hp.trans hj.symm)
        have : i = j - 1 := by omega
        simp [this]
    have hnd : ((List.range n).filter
        ((fun e => e.source == id || e.target == id) ∘ chainEdge)).Nodup :=
      (List.nodup_range n).filter _
    have h1 : ((List.range n).filter
        ((fun e => e.source == id || e.target == id) ∘ chainEdge)).length =
        ((List.range n).filter
          ((fun e => e.source == id || e.target == id) ∘ chainEdge)).toFinset.card :=
      (List.toFinset_card_of_nodup hnd).symm
    have h2 : ((List.range n).filter
        ((fun e => e.source == id || e.target == id) ∘ chainEdge)).toFinset ⊆
        ([j, j - 1] : List Nat).toFinset := by
      intro x hx
      rw [List.mem_toFinset] at hx
      rw [List.mem_toFinset]
      exact hsub x hx
    have h3 := Finset.card_le_card h2
    have h4 := List.toFinset_card_le ([j, j - 1] : List Nat)
    rw [List.countP_eq_length_filter]
    simp only [List.length_cons, List.length_nil] at h4
    omega
  · push_neg at hid
    have : (List.range n).countP
        ((fun e => e.source == id || e.target == id) ∘ chainEdge) = 0 := by
      rw [List.countP_eq_zero]
      intro i _
      simp only [Function.comp, chainEdge, Bool.or_eq_true, beq_iff_eq]
      push_neg
      exact ⟨hid i, hid (i + 1)⟩
    omega

theorem chain_pushes_le (n : Nat) :
    ∀ (id : String) (d : Nat) (v : List String),
      (scanEdges id d (chainEdges n) v).2.length ≤ 4 := by
  intro id d v
  have h1 := scanEdges_pushes_length_le id d (chainEdges n) v
  have h2 := chain_countP_le n id
  omega

theorem getNeighborhood_mem_succ (nodeId : String) (k : Nat)
    (edges : List GraphEdge) :
    ∀ y ∈ getNeighborhood nodeId k edges,
      y ∈ getNeighborhood nodeId (k + 1) edges := by
  intro y hy
  rw [mem_getNeighborhood_iff] at hy ⊢
  exact reachFrom_succ hy

theorem getNeighborhood_length_mono (nodeId : String) (k : Nat)
    (edges : List GraphEdge) :
    (getNeighborhood nodeId k edges).length ≤
      (getNeighborhood nodeId (k + 1) edges).length := by
  have h1 : (getNeighborhood nodeId k edges).length =
      (getNeighborhood nodeId k edges).toFinset.card :=
    (List.toFinset_card_of_nodup (getNeighborhood_nodup nodeId k edges)).symm
  have h2 : (getNeighborhood nodeId k edges).toFinset ⊆
      (getNeighborhood nodeId (k + 1) edges).toFinset := by
    intro x hx
    rw [List.mem_toFinset] at hx
    rw [List.mem_toFinset]
    exact getNeighborhood_mem_succ nodeId k edges x hx
  have h3 := Finset.card_le_card h2
  have h4 := List.toFinset_card_le (getNeighborhood nodeId (k + 1) edges)
  omega

/-! ## Fixtures for the witness theorems -/

def nodeA : String := "a"

def nodeB : String := "b"

def nodeC : String := "c"

def nodeZ : String := "z"

def edgeAB : GraphEdge :=
  { source := nodeA, target := nodeB, kind := EdgeKind.influence }

def edgeBC : GraphEdge :=
  { source := nodeB, target := nodeC, kind := EdgeKind.influence }

def edgeCA : GraphEdge :=
  { source := nodeC, target := nodeA, kind := EdgeKind.influence }

def edgeAA : GraphEdge :=
  { source := nodeA, target := nodeA, kind := EdgeKind.influence }

def createdLabel : String := "created"

def foundedLabel : String := "founded"

def unknownLabel : String := "zzz"

def edgeABFull : GraphEdge :=
  { source := nodeA, target := nodeB, kind := EdgeKind.influence,
    label := some createdLabel, year := some 1970 }

def edgeABBare : GraphEdge :=
  { source := nodeA, target := nodeB, kind := EdgeKind.affiliation,
    label := none, year := none }

theorem edgeInspections_not_linear :
    ¬ ∃ c : Nat, ∀ (s : String) (d : Nat) (es : List GraphEdge),
      edgeInspections s d es ≤ c * es.length := by
  rintro ⟨c, hc⟩
  have hn : 0 < 4 * c + 4 := by omega
  have hlen : (chainEdges (4 * c + 4)).length = 4 * c + 4 :=
    chainEdges_length (4 * c + 4)
  have hmem : ∀ i ≤ 4 * c + 4, chainName i ∈
      getNeighborhood (chainName 0) (4 * c + 4) (chainEdges (4 * c + 4)) := by
    intro i hi
    rw [mem_getNeighborhood_iff]
    exact chain_reach (4 * c + 4) i hi
  have hnodupmap : ((List.range (4 * c + 5)).map chainName).Nodup :=
    (List.nodup_range (4 * c + 5)).map chainName_injective
  have hsubr : ((List.range (4 * c + 5)).map chainName).toFinset ⊆
      (getNeighborhood (chainName 0) (4 * c + 4)
        (chainEdges (4 * c + 4))).toFinset := by
    intro x hx
    rw [List.mem_toFinset] at hx
    obtain ⟨i, hi, rfl⟩ := List.mem_map.mp hx
    rw [List.mem_toFinset]
    exact hmem i (by
      rw [List.mem_range] at hi
      omega)
  have hcard1 : ((List.range (4 * c + 5)).map chainName).toFinset.card =
      4 * c + 5 := by
    rw [List.toFinset_card_of_nodup hnodupmap]
    simp
  have hrlen : 4 * c + 5 ≤ (getNeighborhood (chainName 0) (4 * c + 4)
      (chainEdges (4 * c + 4))).length := by
    have h1 := Finset.card_le_card hsubr
    have h2 := List.toFinset_card_le (getNeighborhood (chainName 0)
      (4 * c + 4) (chainEdges (4 * c + 4)))
    omega
  have hgrow := bfsLoopTrace_growth (chainEdges (4 * c + 4)) (4 * c + 4) 4
    (chain_pushes_le (4 * c + 4)) _ _ _ _ _
    (bfsLoopTrace_init_eq (chainName 0) (4 * c + 4) (chainEdges (4 * c + 4)))
  simp only [List.length_singleton] at hgrow
  have hexlen : c + 1 ≤
      (bfsExpanded (chainName 0) (4 * c + 4) (chainEdges (4 * c + 4))).length := by
    omega
  have hins := hc (chainName 0) (4 * c + 4) (chainEdges (4 * c + 4))
  rw [edgeInspections, hlen] at hins
  have hmul : (c + 1) * (4 * c + 4) ≤
      (bfsExpanded (chainName 0) (4 * c + 4)
        (chainEdges (4 * c + 4))).length * (4 * c + 4) :=
    Nat.mul_le_mul_right _ hexlen
  have hexp : (c + 1) * (4 * c + 4) = c * (4 * c + 4) + (4 * c + 4) := by ring
  omega

/-! ## Claim theorems -/

/-- C1: for every start id, every `maxHops ≥ 0` and every finite edge list,
`getNeighborhood` returns exactly the set containing the start id together
with every node id reachable from it by a walk of at most `maxHops` hops,
each edge traversable in either direction, each traversal one hop. -/
theorem claim_C1_neighborhood_correct (nodeId : String) (maxHops : Nat)
    (edges : List GraphEdge) :
    nodeId ∈ getNeighborhood nodeId maxHops edges ∧
    ∀ y, y ∈ getNeighborhood nodeId maxHops edges ↔
      reachFrom edges nodeId maxHops y :=
  ⟨(mem_getNeighborhood_iff nodeId maxHops edges nodeId).mpr
      (reachFrom_self edges nodeId maxHops),
    mem_getNeighborhood_iff nodeId maxHops edges⟩

/-- C2: `getDirectNeighbors` agrees with `getNeighborhood` at one hop, for
every node id and edge list — in fact the two produce the same list, not
just the same set. -/
theorem claim_C2_direct_neighbors_equiv (nodeId : String)
    (edges : List GraphEdge) :
    getDirectNeighbors nodeId edges = getNeighborhood nodeId 1 edges :=
  getDirectNeighbors_eq_one_hop nodeId edges

/-- C3: for fixed start and edge list, the neighborhood at `k` hops is a
subset of the neighborhood at `k + 1` hops, and its size (the results are
duplicate-free) is monotonically non-decreasing in the hop bound. -/
theorem claim_C3_monotone (nodeId : String) (k : Nat)
    (edges : List GraphEdge) :
    (∀ y ∈ getNeighborhood nodeId k edges,
      y ∈ getNeighborhood nodeId (k + 1) edges) ∧
    (getNeighborhood nodeId k edges).length ≤
      (getNeighborhood nodeId (k + 1) edges).length :=
  ⟨getNeighborhood_mem_succ nodeId k edges,
    getNeighborhood_length_mono nodeId k edges⟩

theorem claim_C3_witness :
    nodeB ∈ getNeighborhood nodeA 2 [edgeAB, edgeBC] ∧
    (getNeighborhood nodeA 1 [edgeAB, edgeBC]).length ≤
      (getNeighborhood nodeA 2 [edgeAB, edgeBC]).length :=
  ⟨(claim_C3_monotone nodeA 1 [edgeAB, edgeBC]).1 nodeB (by decide),
    (claim_C3_monotone nodeA 1 [edgeAB, edgeBC]).2⟩

/-- C4: for every start id, hop bound and finite edge list — cycles,
self-loops and duplicate edges included — the BFS loop runs to completion
(queue exhausted, `some` result, never the fuel-exhaustion `none`) within
any budget of at least `bfsFuel` iterations, and its result is the total
function `getNeighborhood`; there is no failing or partial outcome. -/
theorem claim_C4_terminates (nodeId : String) (depth : Nat)
    (edges : List GraphEdge) (fuel : Nat)
    (hfuel : bfsFuel edges [nodeId] [(nodeId, 0)] ≤ fuel) :
    bfsLoopFuel edges depth fuel [(nodeId, 0)] [nodeId] =
      some (getNeighborhood nodeId depth edges) :=
  bfsLoopFuel_fuel_mono edges depth _ fuel _ _ _
    (getNeighborhood_eq_some nodeId depth edges) hfuel

theorem claim_C4_witness :
    bfsFuel [edgeAB, edgeBC, edgeCA, edgeAA, edgeAB] [nodeA] [(nodeA, 0)] ≤ 100 ∧
    bfsLoopFuel [edgeAB, edgeBC, edgeCA, edgeAA, edgeAB] 7 100 [(nodeA, 0)] [nodeA] =
      some (getNeighborhood nodeA 7 [edgeAB, edgeBC, edgeCA, edgeAA, edgeAB]) :=
  ⟨by decide,
    claim_C4_terminates nodeA 7 [edgeAB, edgeBC, edgeCA, edgeAA, edgeAB] 100
      (by decide)⟩

/-- C5: with `maxHops = 0` the result is exactly the singleton containing
the start id, for every edge list. -/
theorem claim_C5_zero_hops (nodeId : String) (edges : List GraphEdge) :
    getNeighborhood nodeId 0 edges = [nodeId] :=
  getNeighborhood_zero nodeId edges

/-- C6: if the start id occurs as neither source nor target of any edge —
in particular when the edge list is empty — the result is exactly the
singleton containing the start id, for every hop bound, with no error. -/
theorem claim_C6_isolated_start (nodeId : String) (depth : Nat)
    (edges : List GraphEdge)
    (hno : ∀ e ∈ edges, e.source ≠ nodeId ∧ e.target ≠ nodeId) :
    getNeighborhood nodeId depth edges = [nodeId] :=
  getNeighborhood_isolated nodeId depth edges hno

theorem claim_C6_witness :
    (∀ e ∈ [edgeAB, edgeBC], e.source ≠ nodeZ ∧ e.target ≠ nodeZ) ∧
    getNeighborhood nodeZ 5 [edgeAB, edgeBC] = [nodeZ] :=
  ⟨by decide, claim_C6_isolated_start nodeZ 5 [edgeAB, edgeBC] (by decide)⟩

/-- C7: the result of `getNeighborhood` depends only on the `source` and
`target` fields of the edges: two edge lists that agree on the sequence of
(source, target) pairs give identical results for every start id and hop
bound, whatever their `kind`, `label` and `year` fields. -/
theorem claim_C7_endpoints_only (es1 es2 : List GraphEdge)
    (h : es1.map (fun e => (e.source, e.target)) =
      es2.map (fun e => (e.source, e.target)))
    (nodeId : String) (maxHops : Nat) :
    getNeighborhood nodeId maxHops es1 = getNeighborhood nodeId maxHops es2 :=
  getNeighborhood_endpoints_congr es1 es2 h nodeId maxHops

theorem claim_C7_witness :
    [edgeABFull].map (fun e => (e.source, e.target)) =
      [edgeABBare].map (fun e => (e.source, e.target)) ∧
    getNeighborhood nodeA 1 [edgeABFull] = getNeighborhood nodeA 1 [edgeABBare] :=
  ⟨by decide, claim_C7_endpoints_only [edgeABFull] [edgeABBare] (by decide) nodeA 1⟩

/-- C8 (counterexample): the running time of `getNeighborhood` is not linear
in the number of edges — no constant `c` bounds the number of edge
inspections by `c` times the edge count, because the whole edge list is
rescanned once per expanded node (witnessed by chain graphs traversed end to
end). -/
theorem claim_C8_counterexample :
    ¬ ∃ c : Nat, ∀ (s : String) (d : Nat) (es : List GraphEdge),
      edgeInspections s d es ≤ c * es.length :=
  edgeInspections_not_linear

/-- C8 (amended): in one call of `getNeighborhood`, each node is expanded at
most once (the expansion trace has no duplicates), and each expansion
inspects each edge exactly once, so the running time is linear in the number
of edges per expanded node: total edge inspections are bounded by the number
of possible nodes, `1 + 2·|edges|`, times `|edges|` — quadratic, not linear,
in the number of edges. -/
theorem claim_C8_amended (nodeId : String) (depth : Nat)
    (edges : List GraphEdge) :
    (bfsExpanded nodeId depth edges).Nodup ∧
    edgeInspections nodeId depth edges =
      (bfsExpanded nodeId depth edges).length * edges.length ∧
    edgeInspections nodeId depth edges ≤
      (1 + 2 * edges.length) * edges.length :=
  ⟨bfsExpanded_nodup nodeId depth edges, rfl,
    Nat.mul_le_mul_right _ (bfsExpanded_length_le nodeId depth edges)⟩

/-- C9: `getEdgeKind` returns `influence` on labels of
`STRONG_EDGE_LABELS`, `affiliation` on labels of `WEAK_EDGE_LABELS`, and
defaults to `influence` on every other label while emitting a diagnostic
warning (modelled by `getEdgeKindWarns`), and only then. -/
theorem claim_C9_edge_kind (label : String) :
    (label ∈ STRONG_EDGE_LABELS →
      getEdgeKind label = EdgeKind.influence ∧ getEdgeKindWarns label = false) ∧
    (label ∈ WEAK_EDGE_LABELS →
      getEdgeKind label = EdgeKind.affiliation ∧ getEdgeKindWarns label = false) ∧
    (label ∉ STRONG_EDGE_LABELS → label ∉ WEAK_EDGE_LABELS →
      getEdgeKind label = EdgeKind.influence ∧ getEdgeKindWarns label = true) := by
  refine ⟨?_, ?_, ?_⟩
  · intro h
    simp [getEdgeKind, getEdgeKindWarns, h]
  · intro h
    have hdisj : ∀ l ∈ WEAK_EDGE_LABELS, l ∉ STRONG_EDGE_LABELS := by decide
    have hns := hdisj label h
    simp [getEdgeKind, getEdgeKindWarns, h, hns]
  · intro h1 h2
    simp [getEdgeKind, getEdgeKindWarns, h1, h2]

theorem claim_C9_witness :
    (createdLabel ∈ STRONG_EDGE_LABELS ∧
      getEdgeKind createdLabel = EdgeKind.influence ∧
      getEdgeKindWarns createdLabel = false) ∧
    (foundedLabel ∈ WEAK_EDGE_LABELS ∧
      getEdgeKind foundedLabel = EdgeKind.affiliation ∧
      getEdgeKindWarns foundedLabel = false) ∧
    (unknownLabel ∉ STRONG_EDGE_LABELS ∧ unknownLabel ∉ WEAK_EDGE_LABELS ∧
      getEdgeKind unknownLabel = EdgeKind.influence ∧
      getEdgeKindWarns unknownLabel = true) :=
  ⟨⟨by decide, (claim_C9_edge_kind createdLabel).1 (by decide)⟩,
    ⟨by decide, (claim_C9_edge_kind foundedLabel).2.1 (by decide)⟩,
    ⟨by decide, by decide,
      (claim_C9_edge_kind unknownLabel).2.2 (by decide) (by decide)⟩⟩

/-- C10: the BFS re-implemented inline inside the interactive viewer
component returns, for every start id, depth and edge list, exactly the same
result as the library `getNeighborhood` of `graph.ts`. -/
theorem claim_C10_viewer_equiv (nodeId : String) (depth : Nat)
    (edgeList : List GraphEdge) :
    viewerGetNeighborhood nodeId depth edgeList =
      getNeighborhood nodeId depth edgeList :=
  viewerGetNeighborhood_eq nodeId depth edgeList

end TechShoulders
